import Mathlib

set_option maxRecDepth 4000
set_option maxHeartbeats 2000000

/-!
Verification of the day-21 multi-level keypad routing engine.

Shallow embedding of `src/src/bin/21.rs`: the key enumerations, the packed
`DirectionSequence`, the breadth-first enumeration of shortest gap-avoiding
paths, the stacked directional-pad cost recursion, the code router and the
parser.  Machine integers are modelled as `Nat` with an explicit `% 2 ^ w`
where the width can matter (the `u64` move packing, the `u32` numeric value
of a parsed code); the `usize` accumulators of the cost loops never rely on
wrapping and are modelled as `Nat`.  Fallible or panicking computations
return `Option`.
-/

namespace Day21

/-- The eleven keys of the numeric keypad (`CodeKey` in the source). -/
inductive CodeKey where
  | Zero | One | Two | Three | Four | Five | Six | Seven | Eight | Nine | A
deriving DecidableEq, Fintype, Repr

/-- The five keys of a directional pad (`DirectionKey` in the source). -/
inductive DirectionKey where
  | Up | Right | Down | Left | A
deriving DecidableEq, Fintype, Repr

/-- A move sequence packed 3 bits per move into a `u64`, with its length
(`DirectionSequence` in the source). -/
structure DirectionSequence where
  length : Nat
  sequence : Nat
deriving DecidableEq, Repr

/-- `DirectionSequence::new()`: the empty sequence. -/
def DirectionSequence.new : DirectionSequence := ⟨0, 0⟩

/-- The 3-bit encoding of a move used by `extended_with`. -/
def DirectionKey.encode : DirectionKey → Nat
  | .Up => 1
  | .Right => 2
  | .Down => 3
  | .Left => 4
  | .A => 5

/-- `DirectionSequence::extended_with`: append one move by or-ing its 3-bit
code at the current end; the result is a `u64`. -/
def DirectionSequence.extended_with (s : DirectionSequence) (d : DirectionKey) :
    DirectionSequence :=
  ⟨s.length + 1, (s.sequence ||| (d.encode <<< (3 * s.length))) % 2 ^ 64⟩

/-- Decoding of one 3-bit chunk, as in the source's `Iterator::next` match. -/
def decode3 : Nat → Option DirectionKey
  | 1 => some .Up
  | 2 => some .Right
  | 3 => some .Down
  | 4 => some .Left
  | 5 => some .A
  | _ => none

/-- Repeated `next()`: read `len` chunks of 3 bits from the low end, stopping
early (as the iterator does) on a chunk that decodes to `None`. -/
def seqToList : Nat → Nat → List DirectionKey
  | 0, _ => []
  | len + 1, bits =>
    match decode3 (bits % 8) with
    | none => []
    | some k => k :: seqToList len (bits >>> 3)

/-- The list of moves produced by iterating a `DirectionSequence`. -/
def DirectionSequence.toList (s : DirectionSequence) : List DirectionKey :=
  seqToList s.length s.sequence

/-- The geometry a `Key` implementation supplies: the forbidden gap cell and
each key's `(row, col)` position. -/
structure Keypad (α : Type) where
  forbidden : Nat × Nat
  pos : α → Nat × Nat

/-- `CodeKey::get_position`. -/
def CodeKey.get_position : CodeKey → Nat × Nat
  | .Zero => (0, 1)
  | .One => (1, 0)
  | .Two => (1, 1)
  | .Three => (1, 2)
  | .Four => (2, 0)
  | .Five => (2, 1)
  | .Six => (2, 2)
  | .Seven => (3, 0)
  | .Eight => (3, 1)
  | .Nine => (3, 2)
  | .A => (0, 2)

/-- `DirectionKey::get_position`. -/
def DirectionKey.get_position : DirectionKey → Nat × Nat
  | .Up => (1, 1)
  | .Right => (0, 2)
  | .Down => (0, 1)
  | .Left => (0, 0)
  | .A => (1, 2)

/-- The numeric keypad: gap at `(0, 0)`. -/
def numericKeypad : Keypad CodeKey := ⟨(0, 0), CodeKey.get_position⟩

/-- The directional keypad: gap at `(1, 0)`. -/
def directionalKeypad : Keypad DirectionKey := ⟨(1, 0), DirectionKey.get_position⟩

/-- `usize::MAX`, the initial value of `best`. -/
def usizeMax : Nat := 2 ^ 64 - 1

/-- Iteration bound for the search loop; the loop always empties its queue
well before this many iterations (proved for every key pair below). -/
def bfsFuel : Nat := 10000

/-- The `while let Some(..) = queue.pop_front()` loop of `Key::shortest_paths`,
with an explicit iteration bound; `none` means the bound was exhausted. -/
def bfsRun (forbidden target : Nat × Nat) :
    Nat → List ((Nat × Nat) × DirectionSequence) → Nat → List DirectionSequence →
    Option (List DirectionSequence)
  | 0, _, _, _ => none
  | _ + 1, [], _, paths => some paths
  | fuel + 1, ((r, c), seq) :: rest, best, paths =>
    if seq.length > best then some paths
    else if (r, c) = target then
      bfsRun forbidden target fuel rest seq.length
        (paths ++ [seq.extended_with DirectionKey.A])
    else if (r, c) = forbidden then
      bfsRun forbidden target fuel rest best paths
    else
      let rowSteps : List ((Nat × Nat) × DirectionSequence) :=
        if r < target.1 then [((r + 1, c), seq.extended_with DirectionKey.Up)]
        else if target.1 < r then [((r - 1, c), seq.extended_with DirectionKey.Down)]
        else []
      let colSteps : List ((Nat × Nat) × DirectionSequence) :=
        if c < target.2 then [((r, c + 1), seq.extended_with DirectionKey.Right)]
        else if target.2 < c then [((r, c - 1), seq.extended_with DirectionKey.Left)]
        else []
      bfsRun forbidden target fuel (rest ++ rowSteps ++ colSteps) best paths

/-- The breadth-first enumeration of `Key::shortest_paths` for a key pair,
started from the singleton queue holding the source position. -/
def bfs_paths {α : Type} (L : Keypad α) (a b : α) : Option (List DirectionSequence) :=
  bfsRun L.forbidden (L.pos b) bfsFuel [(L.pos a, DirectionSequence.new)] usizeMax []

/-- `Key::shortest_paths`: the singleton `[Activate]` when the keys coincide,
otherwise the paths collected by the breadth-first loop. -/
def Key.shortest_paths {α : Type} [DecidableEq α] (L : Keypad α) (a b : α) :
    List DirectionSequence :=
  if a = b then [⟨1, 5⟩] else (bfs_paths L a b).getD []

/-- `<CodeKey as Key>::shortest_paths`. -/
def CodeKey.shortest_paths : CodeKey → CodeKey → List DirectionSequence :=
  Key.shortest_paths numericKeypad

/-- `<DirectionKey as Key>::shortest_paths`. -/
def DirectionKey.shortest_paths : DirectionKey → DirectionKey → List DirectionSequence :=
  Key.shortest_paths directionalKeypad

/-- Evaluate `f` on every element in order, propagating a panic (`none`). -/
def traverseO {α β : Type} (f : α → Option β) : List α → Option (List β)
  | [] => some []
  | x :: xs =>
    match f x with
    | none => none
    | some y =>
      match traverseO f xs with
      | none => none
      | some ys => some (y :: ys)

/-- `Iterator::min` on a list of values. -/
def listMin : List Nat → Option Nat
  | [] => none
  | x :: xs =>
    match listMin xs with
    | none => some x
    | some m => some (min x m)

/-- A fold that propagates a panic (`none`) from the loop body. -/
def foldlO {α σ : Type} (f : σ → α → Option σ) : σ → List α → Option σ
  | s, [] => some s
  | s, x :: xs =>
    match f s x with
    | none => none
    | some s2 => foldlO f s2 xs

/-- The `for second in path` loop of `shortest_path_stacked`: walk the moves
as consecutive pairs starting from `Activate`; at `level == 1` add the minimal
candidate length, otherwise add the minimal recursive cost (where `recurse`
stands for `shortest_path_stacked(level - 1, ..)`, a panic when `level == 0`
since `level - 1` underflows). -/
def stackedGo (level : Nat) (recurse : DirectionSequence → Option Nat) :
    DirectionKey → List DirectionKey → Option Nat
  | _, [] => some 0
  | first, second :: rest =>
    let paths := DirectionKey.shortest_paths first second
    if level = 1 then
      match stackedGo level recurse second rest with
      | none => none
      | some r => some ((listMin (paths.map DirectionSequence.length)).getD 0 + r)
    else
      match traverseO recurse paths with
      | none => none
      | some cs =>
        match stackedGo level recurse second rest with
        | none => none
        | some r => some ((listMin cs).getD 0 + r)

/-- `DirectionPadStack::shortest_path_stacked`.  At `level == 0` the source
would evaluate `level - 1` on a `usize`, an arithmetic underflow: the
recursive branch is modelled as a panic. -/
def shortest_path_stacked : Nat → DirectionSequence → Option Nat
  | 0, path => stackedGo 0 (fun _ => none) DirectionKey.A path.toList
  | l + 1, path => stackedGo (l + 1) (shortest_path_stacked l) DirectionKey.A path.toList

/-- A parsed code: its numeric value and its key presses. -/
structure Code where
  number : Nat
  keys : List CodeKey
deriving DecidableEq, Repr

/-- `iter().enumerate()` over a list. -/
def enumFromN {α : Type} : Nat → List α → List (Nat × α)
  | _, [] => []
  | n, x :: xs => (n, x) :: enumFromN (n + 1) xs

/-- One iteration of the `shortest_path_for_code` loop: the previous key is
`A` at index 0 and `keys[ix - 1]` otherwise; add the minimal stacked cost
over the numeric-keypad candidates. -/
def spfcStep (height : Nat) (keys : List CodeKey) (total : Nat) (p : Nat × CodeKey) :
    Option Nat :=
  let first := if p.1 = 0 then CodeKey.A else keys.getD (p.1 - 1) CodeKey.A
  match traverseO (shortest_path_stacked height) (CodeKey.shortest_paths first p.2) with
  | none => none
  | some cs => some (total + (listMin cs).getD 0)

/-- `DirectionPadStack::shortest_path_for_code` for a stack of the given
height. -/
def shortest_path_for_code (height : Nat) (code : Code) : Option Nat :=
  foldlO (spfcStep height code.keys) 0 (enumFromN 0 code.keys)

/-- The summation in `part_one`: each code's press count times its numeric
value, summed over all codes. -/
def total_cost (height : Nat) (codes : List Code) : Option Nat :=
  match traverseO (fun code => (shortest_path_for_code height code).map (· * code.number)) codes with
  | none => none
  | some ts => some ts.sum

/-- Spec-side cost of one key pair: the minimum over the numeric-keypad
shortest paths of the stacked cost at the given chain depth. -/
def pairCost (height : Nat) (a b : CodeKey) : Option Nat :=
  match traverseO (shortest_path_stacked height) (CodeKey.shortest_paths a b) with
  | none => none
  | some cs => some ((listMin cs).getD 0)

/-- Spec-side press count of a code: the sum of `pairCost` over the
consecutive key pairs of the code, starting from the pair `(A, first key)`. -/
def pressCountSpec (height : Nat) (code : Code) : Option Nat :=
  match traverseO (fun pr => pairCost height pr.1 pr.2)
      ((CodeKey.A :: code.keys).zip code.keys) with
  | none => none
  | some cs => some cs.sum

/-- Proof scaffold: the per-code pair walk with the previous key carried
explicitly instead of re-read through `keys[ix - 1]`. -/
def pairsGo (height : Nat) : CodeKey → List CodeKey → Option Nat
  | _, [] => some 0
  | prev, k :: rest =>
    match pairCost height prev k with
    | none => none
    | some c =>
      match pairsGo height k rest with
      | none => none
      | some r => some (c + r)

/-- Spec-side grand total: the sum over codes of the numeric value times the
press count. -/
def totalSpec (height : Nat) (codes : List Code) : Option Nat :=
  match traverseO (fun code => (pressCountSpec height code).map (code.number * ·)) codes with
  | none => none
  | some ts => some ts.sum

/-- Spec cost of executing a candidate sequence through further levels,
following the spec's recursion with its base case at level 0:
`cost(seq, 0) = seq.length()` and one directional-pad walk per level. -/
def costSpec : Nat → DirectionSequence → Nat
  | 0, seq => seq.length
  | l + 1, seq => costPairsWith (costSpec l) DirectionKey.A seq.toList
where
  /-- The per-level walk: sum over consecutive symbols of the minimum of `f`
  over the directional-pad candidates. -/
  costPairsWith (f : DirectionSequence → Nat) :
      DirectionKey → List DirectionKey → Nat
    | _, [] => 0
    | prev, sym :: rest =>
      (listMin ((DirectionKey.shortest_paths prev sym).map f)).getD 0 +
        costPairsWith f sym rest

/-- The five example codes of the repository's tests. -/
def exampleCodes : List Code :=
  [⟨29, [.Zero, .Two, .Nine, .A]⟩,
   ⟨980, [.Nine, .Eight, .Zero, .A]⟩,
   ⟨179, [.One, .Seven, .Nine, .A]⟩,
   ⟨456, [.Four, .Five, .Six, .A]⟩,
   ⟨379, [.Three, .Seven, .Nine, .A]⟩]

/-- Row distance between two keys of a layout. -/
def dRow {α : Type} (L : Keypad α) (a b : α) : Nat :=
  (((L.pos b).1 : Int) - ((L.pos a).1 : Int)).natAbs

/-- Column distance between two keys of a layout. -/
def dCol {α : Type} (L : Keypad α) (a b : α) : Nat :=
  (((L.pos b).2 : Int) - ((L.pos a).2 : Int)).natAbs

/-- The grid cell reached by one move (`Activate` does not move). -/
def applyMove : Nat × Nat → DirectionKey → Nat × Nat
  | (r, c), .Up => (r + 1, c)
  | (r, c), .Down => (r - 1, c)
  | (r, c), .Right => (r, c + 1)
  | (r, c), .Left => (r, c - 1)
  | (r, c), .A => (r, c)

/-- Every grid cell traversed while executing a move list from a start cell,
the start included. -/
def visitedCells (start : Nat × Nat) : List DirectionKey → List (Nat × Nat)
  | [] => [start]
  | m :: ms => start :: visitedCells (applyMove start m) ms

/-- `char::to_digit(10)`: the value of a decimal digit character. -/
def charToDigit (c : Char) : Option Nat :=
  if '0' ≤ c ∧ c ≤ '9' then some (c.toNat - 48) else none

/-- `TryFrom<char> for CodeKey`. -/
def CodeKey.tryFrom (c : Char) : Option CodeKey :=
  if c = '0' then some CodeKey.Zero
  else if c = '1' then some CodeKey.One
  else if c = '2' then some CodeKey.Two
  else if c = '3' then some CodeKey.Three
  else if c = '4' then some CodeKey.Four
  else if c = '5' then some CodeKey.Five
  else if c = '6' then some CodeKey.Six
  else if c = '7' then some CodeKey.Seven
  else if c = '8' then some CodeKey.Eight
  else if c = '9' then some CodeKey.Nine
  else if c = 'A' then some CodeKey.A
  else none

/-- A character a code line may contain: a decimal digit or `A`. -/
def validCodeChar (c : Char) : Prop := ('0' ≤ c ∧ c ≤ '9') ∨ c = 'A'

instance (c : Char) : Decidable (validCodeChar c) := by
  unfold validCodeChar; infer_instance

/-- `char::is_whitespace`: the Unicode White_Space property — U+0009..U+000D,
U+0020, U+0085, U+00A0, U+1680, U+2000..U+200A, U+2028, U+2029, U+202F,
U+205F and U+3000. -/
def isRustWhitespace (c : Char) : Bool :=
  decide ((9 ≤ c.toNat ∧ c.toNat ≤ 13) ∨ c.toNat = 32 ∨ c.toNat = 133 ∨ c.toNat = 160 ∨
    c.toNat = 5760 ∨ (8192 ≤ c.toNat ∧ c.toNat ≤ 8202) ∨ c.toNat = 8232 ∨
    c.toNat = 8233 ∨ c.toNat = 8239 ∨ c.toNat = 8287 ∨ c.toNat = 12288)

/-- `str::trim` on a line of characters: strip the characters with the
Unicode White_Space property from both ends. -/
def trim (l : List Char) : List Char :=
  ((l.dropWhile isRustWhitespace).reverse.dropWhile isRustWhitespace).reverse

/-- The character loop of `Code::from_str`: accumulate the `u32` numeric
value from digit characters and convert every character into a key, failing
on the first character that is no key. -/
def parseLoop : List Char → Nat → List CodeKey → Option (Nat × List CodeKey)
  | [], number, keys => some (number, keys)
  | c :: rest, number, keys =>
    let number2 :=
      match charToDigit c with
      | some d => (number * 10 + d) % 2 ^ 32
      | none => number
    match CodeKey.tryFrom c with
    | none => none
    | some k => parseLoop rest number2 (keys ++ [k])

/-- `Code::from_str` on one line (the final `u32 → usize` conversion always
succeeds on a 64-bit target and is dropped). -/
def Code.from_line (line : List Char) : Option Code :=
  match parseLoop (trim line) 0 [] with
  | none => none
  | some (n, ks) => some ⟨n, ks⟩

/-- `Code::vec_from_str` over pre-split input lines. -/
def Code.vec_from_str (lines : List (List Char)) : Option (List Code) :=
  traverseO Code.from_line lines

/-- `part_one`, taking the input as its list of lines: `None` exactly when
parsing fails, otherwise the chain-depth-2 weighted total. -/
def part_one (lines : List (List Char)) : Option Nat :=
  match Code.vec_from_str lines with
  | none => none
  | some codes => total_cost 2 codes

/-- The decimal number formed by the digit characters of a line in order. -/
def decimalValue (cs : List Char) : Nat :=
  cs.foldl (fun n c => if '0' ≤ c ∧ c ≤ '9' then n * 10 + (c.toNat - 48) else n) 0

/-- Spec-side enumeration of the monotonic staircase paths of a layout: every
move list that walks from a cell to the target moving only toward the target
on each axis, never standing on the gap, and finishing with the single
`Activate`.  The fuel argument only bounds the recursion; `dRow + dCol + 1`
steps always suffice. -/
def monoPaths (gap target : Nat × Nat) : Nat → Nat × Nat → List (List DirectionKey)
  | 0, _ => []
  | fuel + 1, (r, c) =>
    if (r, c) = target then [[DirectionKey.A]]
    else if (r, c) = gap then []
    else
      (if r < target.1 then
        (monoPaths gap target fuel (r + 1, c)).map (DirectionKey.Up :: ·)
      else if target.1 < r then
        (monoPaths gap target fuel (r - 1, c)).map (DirectionKey.Down :: ·)
      else []) ++
      (if c < target.2 then
        (monoPaths gap target fuel (r, c + 1)).map (DirectionKey.Right :: ·)
      else if target.2 < c then
        (monoPaths gap target fuel (r, c - 1)).map (DirectionKey.Left :: ·)
      else [])

/-- The returned candidate set contains no duplicates and its move lists are
exactly the gap-avoiding monotone interleavings between the two keys. -/
abbrev samePathSet {α : Type} [DecidableEq α] (L : Keypad α) (a b : α) : Prop :=
  (Key.shortest_paths L a b).Nodup ∧
  (∀ seq ∈ Key.shortest_paths L a b,
    seq.toList ∈ monoPaths L.forbidden (L.pos b) (dRow L a b + dCol L a b + 1) (L.pos a)) ∧
  (∀ ms ∈ monoPaths L.forbidden (L.pos b) (dRow L a b + dCol L a b + 1) (L.pos a),
    ∃ seq ∈ Key.shortest_paths L a b, seq.toList = ms)

/-- The shape every sequence returned for a distinct key pair must have:
minimal length `dRow + dCol + 1`, a single trailing `Activate`, and no
traversal of the layout's gap. -/
abbrev pathInvariant {α : Type} (L : Keypad α) (a b : α) (seq : DirectionSequence) : Prop :=
  seq.length = dRow L a b + dCol L a b + 1 ∧
  seq.toList.length = seq.length ∧
  seq.toList.count DirectionKey.A = 1 ∧
  seq.toList.getLast? = some DirectionKey.A ∧
  L.forbidden ∉ visitedCells (L.pos a) seq.toList

/-! ## Helper lemmas -/

theorem listMin_isSome {l : List Nat} (h : l ≠ []) : (listMin l).isSome := by
  cases l with
  | nil => exact absurd rfl h
  | cons x xs => cases hxs : listMin xs <;> simp [listMin, hxs]

theorem traverseO_isSome {α β : Type} {f : α → Option β} {l : List α}
    (h : ∀ x ∈ l, (f x).isSome) : (traverseO f l).isSome := by
  induction l with
  | nil => simp [traverseO]
  | cons x xs ih =>
    obtain ⟨y, hy⟩ := Option.isSome_iff_exists.1 (h x (List.mem_cons_self x xs))
    obtain ⟨ys, hys⟩ :=
      Option.isSome_iff_exists.1 (ih (fun z hz => h z (List.mem_cons_of_mem x hz)))
    simp [traverseO, hy, hys]

theorem stackedGo_isSome {lvl : Nat} {f : DirectionSequence → Option Nat}
    (hf : lvl = 1 ∨ ∀ p, (f p).isSome) :
    ∀ (first : DirectionKey) (ms : List DirectionKey), (stackedGo lvl f first ms).isSome := by
  intro first ms
  induction ms generalizing first with
  | nil => simp [stackedGo]
  | cons m ms ih =>
    obtain ⟨r, hr⟩ := Option.isSome_iff_exists.1 (ih m)
    rcases hf with h1 | hsome
    · subst h1; simp [stackedGo, hr]
    · obtain ⟨cs, hcs⟩ :=
        Option.isSome_iff_exists.1
          (@traverseO_isSome _ _ f (DirectionKey.shortest_paths first m)
            (fun p _ => hsome p))
      by_cases hl : lvl = 1
      · subst hl; simp [stackedGo, hr]
      · simp [stackedGo, hl, hcs, hr]

theorem stacked_isSome : ∀ (l : Nat) (seq : DirectionSequence),
    (shortest_path_stacked (l + 1) seq).isSome := by
  intro l
  induction l with
  | zero => exact fun seq => stackedGo_isSome (Or.inl rfl) _ _
  | succ n ih => exact fun seq => stackedGo_isSome (Or.inr ih) _ _

/-! ## Claims -/

/-- Claim C1: for chain depth 2 the five example codes 029A, 980A, 179A,
456A, 379A cost 68, 60, 68, 64 and 64 presses respectively, and the
value-weighted grand total is 126384. -/
theorem claim1_example_totals :
    exampleCodes.map (shortest_path_for_code 2) =
      [some 68, some 60, some 68, some 64, some 64] ∧
    total_cost 2 exampleCodes = some 126384 :=
  ⟨rfl, rfl⟩

/-- Claim C3: every sequence returned for a distinct key pair on either
layout has length `dRow + dCol + 1`, contains `Activate` exactly once and as
its final move, and never traverses the layout's gap cell. -/
theorem claim3_path_invariants :
    (∀ a b : CodeKey, a ≠ b →
      ∀ seq ∈ CodeKey.shortest_paths a b, pathInvariant numericKeypad a b seq) ∧
    (∀ a b : DirectionKey, a ≠ b →
      ∀ seq ∈ DirectionKey.shortest_paths a b, pathInvariant directionalKeypad a b seq) :=
  ⟨by decide, by decide⟩

/-- Witness for C3: the pair `(Zero, Two)` with its returned path `[Up, A]`. -/
theorem claim3_path_invariants_witness :
    CodeKey.Zero ≠ CodeKey.Two ∧ pathInvariant numericKeypad CodeKey.Zero CodeKey.Two ⟨2, 41⟩ :=
  ⟨by decide, claim3_path_invariants.1 CodeKey.Zero CodeKey.Two (by decide) ⟨2, 41⟩ (by decide)⟩

/-- Counterexample to C4 as stated: the numeric pair `(Zero, Nine)` yields
four candidate sequences, not at most two. -/
theorem claim4_counterexample :
    2 < (CodeKey.shortest_paths CodeKey.Zero CodeKey.Nine).length := by decide

/-- Claim C4 (amended): for every distinct key pair the search returns,
without duplicates, exactly the gap-avoiding monotone interleavings — every
returned sequence's move list is such an interleaving and every such
interleaving is the move list of a returned candidate, so the count can
exceed two — and it returns exactly one candidate whenever `dRow = 0` or
`dCol = 0`. -/
theorem claim4_amended_monotone_enumeration :
    (∀ a b : CodeKey, a ≠ b → samePathSet numericKeypad a b) ∧
    (∀ a b : DirectionKey, a ≠ b → samePathSet directionalKeypad a b) ∧
    (∀ a b : CodeKey, a ≠ b →
      dRow numericKeypad a b = 0 ∨ dCol numericKeypad a b = 0 →
      (CodeKey.shortest_paths a b).length = 1) ∧
    (∀ a b : DirectionKey, a ≠ b →
      dRow directionalKeypad a b = 0 ∨ dCol directionalKeypad a b = 0 →
      (DirectionKey.shortest_paths a b).length = 1) :=
  ⟨by decide, by decide, by decide, by decide⟩

/-- Witness for the amended C4: the pair `(Zero, Nine)`, whose four monotone
interleavings are all returned, and the row-aligned pair `(Zero, A)` with its
single candidate. -/
theorem claim4_amended_witness :
    (CodeKey.Zero ≠ CodeKey.Nine ∧ samePathSet numericKeypad CodeKey.Zero CodeKey.Nine) ∧
    (CodeKey.Zero ≠ CodeKey.A ∧ (CodeKey.shortest_paths CodeKey.Zero CodeKey.A).length = 1) :=
  ⟨⟨by decide, claim4_amended_monotone_enumeration.1 CodeKey.Zero CodeKey.Nine (by decide)⟩,
   ⟨by decide, claim4_amended_monotone_enumeration.2.2.1 CodeKey.Zero CodeKey.A
     (by decide) (by decide)⟩⟩

/-- Counterexample to C5 as stated: at level 0 the cost function does not
return the sequence's length — the `level - 1` underflow makes it fail
(modelled as `none`) on the nonempty sequence `[A]`. -/
theorem claim5_counterexample :
    shortest_path_stacked 0 ⟨1, 5⟩ ≠ some ((⟨1, 5⟩ : DirectionSequence).length) := by decide

/-- Claim C6: both layouts return a nonempty candidate set for every ordered
key pair, so the `unwrap_or(0)` fallback of the cost-summation loops never
fires: the minimum over the mapped candidates always exists. -/
theorem claim6_nonempty_paths :
    (∀ a b : CodeKey, CodeKey.shortest_paths a b ≠ []) ∧
    (∀ a b : DirectionKey, DirectionKey.shortest_paths a b ≠ []) ∧
    (∀ (g : DirectionSequence → Nat) (a b : CodeKey),
      (listMin ((CodeKey.shortest_paths a b).map g)).isSome) ∧
    (∀ (g : DirectionSequence → Nat) (a b : DirectionKey),
      (listMin ((DirectionKey.shortest_paths a b).map g)).isSome) := by
  have hc : ∀ a b : CodeKey, CodeKey.shortest_paths a b ≠ [] := by decide
  have hd : ∀ a b : DirectionKey, DirectionKey.shortest_paths a b ≠ [] := by decide
  refine ⟨hc, hd, fun g a b => ?_, fun g a b => ?_⟩
  · exact listMin_isSome (by simp [hc a b])
  · exact listMin_isSome (by simp [hd a b])

/-- Witness for C6: the numeric pair `(Zero, Two)` and the directional pair
`(A, Up)` mapped through the sequence length. -/
theorem claim6_nonempty_paths_witness :
    CodeKey.shortest_paths CodeKey.Zero CodeKey.Two ≠ [] ∧
    (listMin ((DirectionKey.shortest_paths DirectionKey.A DirectionKey.Up).map
      DirectionSequence.length)).isSome :=
  ⟨claim6_nonempty_paths.1 CodeKey.Zero CodeKey.Two,
   claim6_nonempty_paths.2.2.2 DirectionSequence.length DirectionKey.A DirectionKey.Up⟩

/-- Claim C7: for every key `k` of either layout, `shortest_paths k k` is the
singleton holding the one-move sequence `[Activate]`. -/
theorem claim7_self_paths :
    (∀ k : CodeKey, CodeKey.shortest_paths k k = [⟨1, 5⟩]) ∧
    (∀ k : DirectionKey, DirectionKey.shortest_paths k k = [⟨1, 5⟩]) ∧
    DirectionSequence.toList ⟨1, 5⟩ = [DirectionKey.A] :=
  ⟨by decide, by decide, rfl⟩

/-- Counterexample to C8 as stated: at level 0 the cost recursion does not
run to a base case — `level - 1` underflows, so the call fails (modelled as
`none`) on the nonempty sequence `[Right, A]`. -/
theorem claim8_counterexample : shortest_path_stacked 0 ⟨2, 42⟩ = none := by decide

/-- Claim C8 (amended): the breadth-first loop terminates (it empties its
queue within the iteration bound) for every ordered key pair on either
layout, and the cost recursion terminates for every sequence at every level
at least 1, each recursive call strictly decreasing the level until the base
case at level 1; at level 0 a nonempty sequence makes `level - 1` underflow. -/
theorem claim8_amended_termination :
    (∀ a b : CodeKey, (bfs_paths numericKeypad a b).isSome) ∧
    (∀ a b : DirectionKey, (bfs_paths directionalKeypad a b).isSome) ∧
    (∀ (level : Nat) (seq : DirectionSequence), 1 ≤ level →
      (shortest_path_stacked level seq).isSome) := by
  refine ⟨by decide, by decide, fun level seq h => ?_⟩
  obtain ⟨l, rfl⟩ : ∃ l, level = l + 1 := ⟨level - 1, by omega⟩
  exact stacked_isSome l seq

/-- Witness for the amended C8: the stacked cost at level 1 of `[A]`. -/
theorem claim8_amended_witness :
    1 ≤ 1 ∧ (shortest_path_stacked 1 ⟨1, 5⟩).isSome :=
  ⟨by decide, claim8_amended_termination.2.2 1 ⟨1, 5⟩ (by decide)⟩

theorem decode3_encode (d : DirectionKey) : decode3 d.encode = some d := by
  cases d <;> rfl

theorem encode_lt (d : DirectionKey) : d.encode < 8 := by
  cases d <;> decide

theorem seqToList_append :
    ∀ (len bits : Nat) (d : DirectionKey), bits < 2 ^ (3 * len) →
      (seqToList len bits).length = len →
      seqToList (len + 1) (bits + d.encode * 2 ^ (3 * len)) = seqToList len bits ++ [d] := by
  intro len
  induction len with
  | zero =>
    intro bits d hb _
    have hb0 : bits = 0 := by simpa using hb
    subst hb0
    simp [seqToList, Nat.mod_eq_of_lt (encode_lt d), decode3_encode]
  | succ n ih =>
    intro bits d hb hlen
    have hpow : 2 ^ (3 * (n + 1)) = 2 ^ (3 * n) * 8 := by
      rw [Nat.mul_succ, pow_add]; norm_num
    cases hk : decode3 (bits % 8) with
    | none =>
      rw [seqToList, hk] at hlen
      simp at hlen
    | some k =>
      rw [seqToList, hk] at hlen
      have hlen2 : (seqToList n (bits >>> 3)).length = n := by
        simpa using hlen
      have hdiv : bits >>> 3 < 2 ^ (3 * n) := by
        rw [Nat.shiftRight_eq_div_pow]
        have h8 : (0 : Nat) < 2 ^ 3 := by norm_num
        rw [Nat.div_lt_iff_lt_mul h8]
        calc bits < 2 ^ (3 * (n + 1)) := hb
          _ = 2 ^ (3 * n) * 2 ^ 3 := by rw [hpow]; norm_num
      have harg : bits + d.encode * 2 ^ (3 * (n + 1)) =
          bits + (d.encode * 2 ^ (3 * n)) * 8 := by
        rw [hpow]; ring
      rw [harg, seqToList]
      rw [Nat.add_mul_mod_self_right, hk]
      have hshift : (bits + (d.encode * 2 ^ (3 * n)) * 8) >>> 3 =
          bits >>> 3 + d.encode * 2 ^ (3 * n) := by
        rw [Nat.shiftRight_eq_div_pow, Nat.shiftRight_eq_div_pow]
        norm_num
        rw [Nat.add_mul_div_right _ _ (by norm_num : (0 : Nat) < 8)]
      rw [hshift, ih (bits >>> 3) d hdiv hlen2, seqToList, hk]
      rfl

theorem fold_invariant : ∀ (moves : List DirectionKey), moves.length ≤ 21 →
    (moves.foldl DirectionSequence.extended_with DirectionSequence.new).toList = moves ∧
    (moves.foldl DirectionSequence.extended_with DirectionSequence.new).length = moves.length ∧
    (moves.foldl DirectionSequence.extended_with DirectionSequence.new).sequence <
      2 ^ (3 * moves.length) := by
  intro moves
  induction moves using List.reverseRecOn with
  | nil => intro _; exact ⟨rfl, rfl, by decide⟩
  | append_singleton ms d ih =>
    intro h
    have hms21 : ms.length ≤ 21 := by simp at h; omega
    have hms20 : ms.length ≤ 20 := by simp at h; omega
    obtain ⟨h1, h2, h3⟩ := ih hms21
    have hF : (ms ++ [d]).foldl DirectionSequence.extended_with DirectionSequence.new
        = (ms.foldl DirectionSequence.extended_with DirectionSequence.new).extended_with d := by
      rw [List.foldl_append]; rfl
    rw [hF]
    have hlist : seqToList ms.length
        (ms.foldl DirectionSequence.extended_with DirectionSequence.new).sequence = ms := by
      have := h1
      rw [DirectionSequence.toList, h2] at this
      exact this
    have hlen2 : (seqToList ms.length
        (ms.foldl DirectionSequence.extended_with DirectionSequence.new).sequence).length
        = ms.length := by rw [hlist]
    have hval : ((ms.foldl DirectionSequence.extended_with DirectionSequence.new).sequence |||
        (d.encode <<< (3 * (ms.foldl DirectionSequence.extended_with
          DirectionSequence.new).length))) % 2 ^ 64 =
        (ms.foldl DirectionSequence.extended_with DirectionSequence.new).sequence +
          d.encode * 2 ^ (3 * ms.length) := by
      rw [Nat.shiftLeft_eq, h2, Nat.lor_comm, Nat.mul_comm d.encode,
        ← Nat.mul_add_lt_is_or h3 d.encode]
      have hb : 2 ^ (3 * ms.length) * d.encode +
          (ms.foldl DirectionSequence.extended_with DirectionSequence.new).sequence <
          2 ^ (3 * (ms.length + 1)) := by
        have he := encode_lt d
        have hp : 2 ^ (3 * (ms.length + 1)) = 2 ^ (3 * ms.length) * 8 := by
          rw [Nat.mul_succ, pow_add]; norm_num
        have hm : 2 ^ (3 * ms.length) * d.encode ≤ 2 ^ (3 * ms.length) * 7 :=
          Nat.mul_le_mul_left _ (by omega)
        rw [hp]
        linarith
      have hsmall : 2 ^ (3 * (ms.length + 1)) ≤ 2 ^ 64 := by
        exact Nat.pow_le_pow_right (by norm_num) (by omega)
      rw [Nat.mod_eq_of_lt (lt_of_lt_of_le hb hsmall)]
      ring
    refine ⟨?_, ?_, ?_⟩
    · simp only [DirectionSequence.extended_with, DirectionSequence.toList]
      rw [hval, h2, seqToList_append ms.length _ d h3 hlen2, hlist]
    · simp only [DirectionSequence.extended_with]
      rw [h2]; simp
    · simp only [DirectionSequence.extended_with]
      rw [hval]
      have he := encode_lt d
      have hp : 2 ^ (3 * ((ms ++ [d]).length)) = 2 ^ (3 * ms.length) * 8 := by
        rw [List.length_append, List.length_cons, List.length_nil, Nat.mul_succ, pow_add]
        norm_num
      have hm : d.encode * 2 ^ (3 * ms.length) ≤ 7 * 2 ^ (3 * ms.length) :=
        Nat.mul_le_mul_right _ (by omega)
      rw [hp]
      linarith

/-- Claim C9: folding `extended_with` over the empty sequence rebuilds any
move list of length at most 21 — iterating the result yields exactly the
original moves and the length field counts them — and `extended_with` is a
pure operation returning a new value. -/
theorem claim9_roundtrip :
    (∀ moves : List DirectionKey, moves.length ≤ 21 →
      (moves.foldl DirectionSequence.extended_with DirectionSequence.new).toList = moves ∧
      (moves.foldl DirectionSequence.extended_with DirectionSequence.new).length
        = moves.length) ∧
    (∀ (s : DirectionSequence) (d : DirectionKey), s.extended_with d ≠ s) := by
  constructor
  · intro moves h
    exact ⟨(fold_invariant moves h).1, (fold_invariant moves h).2.1⟩
  · intro s d hEq
    have : s.length + 1 = s.length := congrArg DirectionSequence.length hEq
    omega

/-- Witness for C9: the two-move list `[Up, A]`. -/
theorem claim9_roundtrip_witness :
    [DirectionKey.Up, DirectionKey.A].length ≤ 21 ∧
    (([DirectionKey.Up, DirectionKey.A].foldl DirectionSequence.extended_with
        DirectionSequence.new).toList = [DirectionKey.Up, DirectionKey.A] ∧
      ([DirectionKey.Up, DirectionKey.A].foldl DirectionSequence.extended_with
        DirectionSequence.new).length = 2) :=
  ⟨by decide, claim9_roundtrip.1 [DirectionKey.Up, DirectionKey.A] (by decide)⟩

theorem traverseO_map {α β : Type} (f : α → Option β) (g : α → β)
    (h : ∀ x, f x = some (g x)) : ∀ l : List α, traverseO f l = some (l.map g) := by
  intro l
  induction l with
  | nil => rfl
  | cons x xs ih => simp [traverseO, h x, ih]

theorem costSpec_zero_fun : costSpec 0 = DirectionSequence.length :=
  funext fun _ => rfl

theorem stackedGo_base_spec (recurse : DirectionSequence → Option Nat) :
    ∀ (first : DirectionKey) (ms : List DirectionKey),
      stackedGo 1 recurse first ms =
        some (costSpec.costPairsWith (costSpec 0) first ms) := by
  intro first ms
  induction ms generalizing first with
  | nil => rfl
  | cons m ms ih =>
    simp [stackedGo, ih, costSpec.costPairsWith, costSpec_zero_fun]

theorem stackedGo_step_spec {lvl : Nat} (hl : ¬ lvl = 1) {f : DirectionSequence → Option Nat}
    {g : DirectionSequence → Nat} (hf : ∀ p, f p = some (g p)) :
    ∀ (first : DirectionKey) (ms : List DirectionKey),
      stackedGo lvl f first ms = some (costSpec.costPairsWith g first ms) := by
  intro first ms
  induction ms generalizing first with
  | nil => rfl
  | cons m ms ih =>
    simp [stackedGo, hl, traverseO_map f g hf, ih, costSpec.costPairsWith]

theorem stacked_eq_costSpec : ∀ (l : Nat) (seq : DirectionSequence),
    shortest_path_stacked (l + 1) seq = some (costSpec (l + 1) seq) := by
  intro l
  induction l with
  | zero =>
    intro seq
    rw [shortest_path_stacked, stackedGo_base_spec]
    rfl
  | succ n ih =>
    intro seq
    rw [shortest_path_stacked, stackedGo_step_spec (by omega) ih]
    rfl

/-- Claim C5 (amended): at level 0 the code's cost function fails on any
nonempty sequence (the `level - 1` underflow); for every level at least 1 it
returns exactly the spec's recursive cost, whose base case
`cost(seq, 0) = seq.length()` is therefore realised one level up, through
the candidates costed at level 1. -/
theorem claim5_amended_cost_refines_spec :
    ∀ (level : Nat) (seq : DirectionSequence), 1 ≤ level →
      shortest_path_stacked level seq = some (costSpec level seq) := by
  intro level seq h
  obtain ⟨l, rfl⟩ : ∃ l, level = l + 1 := ⟨level - 1, by omega⟩
  exact stacked_eq_costSpec l seq

/-- Witness for the amended C5: chain depth 2 on the sequence `[Up, A]`. -/
theorem claim5_amended_witness :
    1 ≤ 2 ∧ shortest_path_stacked 2 ⟨2, 41⟩ = some (costSpec 2 ⟨2, 41⟩) :=
  ⟨by decide, claim5_amended_cost_refines_spec 2 ⟨2, 41⟩ (by decide)⟩

theorem foldlO_enum_eq_pairsGo (height : Nat) (keys : List CodeKey) :
    ∀ (suffix : List CodeKey) (n : Nat) (prev : CodeKey) (total : Nat),
      keys.drop n = suffix →
      (if n = 0 then CodeKey.A else keys.getD (n - 1) CodeKey.A) = prev →
      foldlO (spfcStep height keys) total (enumFromN n suffix) =
        (pairsGo height prev suffix).map (total + ·) := by
  intro suffix
  induction suffix with
  | nil => intro n prev total _ _; simp [enumFromN, foldlO, pairsGo]
  | cons k rest ih =>
    intro n prev total hdrop hprev
    have hget : keys.getD n CodeKey.A = k := by
      rw [List.getD_eq_getElem?_getD, ← List.head?_drop, hdrop]
      rfl
    have hdrop2 : keys.drop (n + 1) = rest := by
      rw [← List.drop_drop, hdrop]; rfl
    have hprev2 : (if n + 1 = 0 then CodeKey.A else keys.getD (n + 1 - 1) CodeKey.A) = k := by
      rw [if_neg (Nat.succ_ne_zero n), Nat.add_sub_cancel]
      exact hget
    simp only [enumFromN, foldlO, spfcStep]
    rw [hprev]
    cases htrav : traverseO (shortest_path_stacked height) (CodeKey.shortest_paths prev k) with
    | none => simp [pairsGo, pairCost, htrav]
    | some cs =>
      simp only [pairsGo, pairCost, htrav]
      rw [ih (n + 1) k (total + (listMin cs).getD 0) hdrop2 hprev2]
      cases pairsGo height k rest with
      | none => rfl
      | some r => simp [Nat.add_assoc]

theorem pairsGo_eq_zip (height : Nat) :
    ∀ (keys : List CodeKey) (prev : CodeKey),
      pairsGo height prev keys =
        (traverseO (fun pr => pairCost height pr.1 pr.2) ((prev :: keys).zip keys)).map
          List.sum := by
  intro keys
  induction keys with
  | nil => intro prev; rfl
  | cons k rest ih =>
    intro prev
    rw [show (prev :: k :: rest).zip (k :: rest) = (prev, k) :: (k :: rest).zip rest from rfl]
    simp only [pairsGo, traverseO]
    cases hpc : pairCost height prev k with
    | none => rfl
    | some c =>
      rw [ih k]
      cases htr : traverseO (fun pr => pairCost height pr.1 pr.2) ((k :: rest).zip rest) with
      | none => rfl
      | some cs => simp

theorem spfc_eq_pressCountSpec (height : Nat) (code : Code) :
    shortest_path_for_code height code = pressCountSpec height code := by
  rw [shortest_path_for_code,
    foldlO_enum_eq_pairsGo height code.keys code.keys 0 CodeKey.A 0 rfl rfl,
    pairsGo_eq_zip]
  unfold pressCountSpec
  cases traverseO (fun pr => pairCost height pr.1 pr.2)
      ((CodeKey.A :: code.keys).zip code.keys) with
  | none => rfl
  | some cs => simp

theorem traverseO_congr {α β : Type} {f g : α → Option β} :
    ∀ l : List α, (∀ x ∈ l, f x = g x) → traverseO f l = traverseO g l := by
  intro l
  induction l with
  | nil => intro _; rfl
  | cons x xs ih =>
    intro h
    simp only [traverseO, h x (List.mem_cons_self x xs),
      ih (fun z hz => h z (List.mem_cons_of_mem x hz))]

/-- Claim C2: for every list of codes and every chain depth, the router's
total equals the sum over codes of the code's numeric value times its press
count, where the press count is the sum over consecutive key pairs (starting
from `(Activate, first key)`) of the minimum over the numeric-keypad
shortest paths of the stacked recursive cost at that depth. -/
theorem claim2_router_decomposition (height : Nat) (codes : List Code) :
    total_cost height codes = totalSpec height codes := by
  have hcode : ∀ code : Code,
      (shortest_path_for_code height code).map (· * code.number) =
        (pressCountSpec height code).map (code.number * ·) := by
    intro code
    rw [spfc_eq_pressCountSpec]
    cases pressCountSpec height code with
    | none => rfl
    | some v => simp [Nat.mul_comm]
  unfold total_cost totalSpec
  rw [traverseO_congr codes (fun code _ => hcode code)]

theorem char_le_iff {a b : Char} : a ≤ b ↔ a.toNat ≤ b.toNat := by
  rw [Char.le_def, UInt32.le_def, BitVec.le_def]
  exact Iff.rfl

theorem char_eq_iff {a b : Char} : a = b ↔ a.toNat = b.toNat :=
  ⟨fun h => by rw [h], fun h => Char.ext (UInt32.ext h)⟩

theorem tryFrom_none_iff (c : Char) : CodeKey.tryFrom c = none ↔ ¬ validCodeChar c := by
  by_cases hv : validCodeChar c
  · refine iff_of_false ?_ (not_not_intro hv)
    intro hnone
    rcases hv with ⟨hl, hr⟩ | hA
    · have hc : c = '0' ∨ c = '1' ∨ c = '2' ∨ c = '3' ∨ c = '4' ∨ c = '5' ∨ c = '6' ∨
          c = '7' ∨ c = '8' ∨ c = '9' := by
        have ht := char_le_iff.1 hl
        have ht2 := char_le_iff.1 hr
        simp only [show Char.toNat '0' = 48 from rfl,
          show Char.toNat '9' = 57 from rfl] at ht ht2
        have hd : c.toNat = 48 ∨ c.toNat = 49 ∨ c.toNat = 50 ∨ c.toNat = 51 ∨
            c.toNat = 52 ∨ c.toNat = 53 ∨ c.toNat = 54 ∨ c.toNat = 55 ∨
            c.toNat = 56 ∨ c.toNat = 57 := by omega
        rcases hd with h | h | h | h | h | h | h | h | h | h
        · exact Or.inl (char_eq_iff.2 h)
        · exact Or.inr (Or.inl (char_eq_iff.2 h))
        · exact Or.inr (Or.inr (Or.inl (char_eq_iff.2 h)))
        · exact Or.inr (Or.inr (Or.inr (Or.inl (char_eq_iff.2 h))))
        · exact Or.inr (Or.inr (Or.inr (Or.inr (Or.inl (char_eq_iff.2 h)))))
        · exact Or.inr (Or.inr (Or.inr (Or.inr (Or.inr (Or.inl (char_eq_iff.2 h))))))
        · exact Or.inr (Or.inr (Or.inr (Or.inr (Or.inr (Or.inr (Or.inl (char_eq_iff.2 h)))))))
        · exact Or.inr (Or.inr (Or.inr (Or.inr (Or.inr (Or.inr (Or.inr (Or.inl
            (char_eq_iff.2 h))))))))
        · exact Or.inr (Or.inr (Or.inr (Or.inr (Or.inr (Or.inr (Or.inr (Or.inr (Or.inl
            (char_eq_iff.2 h)))))))))
        · exact Or.inr (Or.inr (Or.inr (Or.inr (Or.inr (Or.inr (Or.inr (Or.inr (Or.inr
            (char_eq_iff.2 h)))))))))
      rcases hc with h | h | h | h | h | h | h | h | h | h <;> subst h <;>
        exact absurd hnone (by decide)
    · subst hA
      exact absurd hnone (by decide)
  · refine iff_of_true ?_ hv
    unfold CodeKey.tryFrom
    split_ifs with h0 h1 h2 h3 h4 h5 h6 h7 h8 h9 hA <;>
      first
        | rfl
        | (exfalso; apply hv; subst_vars; decide)

theorem parseLoop_none_iff :
    ∀ (cs : List Char) (acc : Nat) (ks : List CodeKey),
      parseLoop cs acc ks = none ↔ ∃ c ∈ cs, CodeKey.tryFrom c = none := by
  intro cs
  induction cs with
  | nil => intro acc ks; simp [parseLoop]
  | cons c rest ih =>
    intro acc ks
    simp only [parseLoop]
    cases htf : CodeKey.tryFrom c with
    | none =>
      refine iff_of_true rfl ⟨c, List.mem_cons_self c rest, htf⟩
    | some k =>
      simp only [htf]
      rw [ih]
      constructor
      · rintro ⟨z, hz, hfz⟩
        exact ⟨z, List.mem_cons_of_mem c hz, hfz⟩
      · rintro ⟨z, hz, hfz⟩
        rcases List.mem_cons.1 hz with rfl | hz2
        · rw [hfz] at htf; cases htf
        · exact ⟨z, hz2, hfz⟩

theorem traverseO_eq_none_iff {α β : Type} (f : α → Option β) :
    ∀ l : List α, traverseO f l = none ↔ ∃ x ∈ l, f x = none := by
  intro l
  induction l with
  | nil => simp [traverseO]
  | cons x xs ih =>
    simp only [traverseO]
    cases hfx : f x with
    | none =>
      refine iff_of_true rfl ⟨x, List.mem_cons_self x xs, hfx⟩
    | some y =>
      cases hxs : traverseO f xs with
      | none =>
        obtain ⟨z, hz, hfz⟩ := ih.1 hxs
        refine iff_of_true rfl ⟨z, List.mem_cons_of_mem x hz, hfz⟩
      | some ys =>
        constructor
        · intro hcontra; exact Option.noConfusion hcontra
        · rintro ⟨z, hz, hfz⟩
          rcases List.mem_cons.1 hz with rfl | hz2
          · rw [hfz] at hfx; cases hfx
          · have hnone : traverseO f xs = none := ih.2 ⟨z, hz2, hfz⟩
            rw [hnone] at hxs; cases hxs

theorem from_line_none_iff (line : List Char) :
    Code.from_line line = none ↔ ∃ c ∈ trim line, ¬ validCodeChar c := by
  unfold Code.from_line
  cases hp : parseLoop (trim line) 0 [] with
  | none =>
    obtain ⟨c, hc, hcf⟩ := (parseLoop_none_iff (trim line) 0 []).1 hp
    exact iff_of_true rfl ⟨c, hc, (tryFrom_none_iff c).1 hcf⟩
  | some pr =>
    constructor
    · intro h
      cases pr
      exact Option.noConfusion h
    · rintro ⟨c, hc, hcv⟩
      have hnone : parseLoop (trim line) 0 [] = none :=
        (parseLoop_none_iff (trim line) 0 []).2 ⟨c, hc, (tryFrom_none_iff c).2 hcv⟩
      rw [hnone] at hp
      cases hp

theorem foldlO_isSome {α σ : Type} {f : σ → α → Option σ}
    (hf : ∀ s a, (f s a).isSome) : ∀ (l : List α) (s : σ), (foldlO f s l).isSome := by
  intro l
  induction l with
  | nil => intro s; simp [foldlO]
  | cons x xs ih =>
    intro s
    obtain ⟨s2, hs2⟩ := Option.isSome_iff_exists.1 (hf s x)
    simp [foldlO, hs2, ih s2]

theorem spfcStep_isSome (keys : List CodeKey) (total : Nat) (p : Nat × CodeKey) :
    (spfcStep 2 keys total p).isSome := by
  simp only [spfcStep]
  obtain ⟨cs, hcs⟩ := Option.isSome_iff_exists.1
    (@traverseO_isSome _ _ (shortest_path_stacked 2)
      (CodeKey.shortest_paths
        (if p.1 = 0 then CodeKey.A else keys.getD (p.1 - 1) CodeKey.A) p.2)
      (fun x _ => stacked_isSome 1 x))
  rw [hcs]
  rfl

theorem total_cost_two_isSome (codes : List Code) : (total_cost 2 codes).isSome := by
  unfold total_cost
  obtain ⟨ts, hts⟩ := Option.isSome_iff_exists.1
    (@traverseO_isSome _ _
      (fun code => (shortest_path_for_code 2 code).map (· * code.number)) codes
      (fun code _ => by
        obtain ⟨v, hv⟩ := Option.isSome_iff_exists.1
          (foldlO_isSome (spfcStep_isSome code.keys) (enumFromN 0 code.keys) 0)
        simp [shortest_path_for_code, hv]))
  simp [hts]

theorem foldl_dec_mod (M : Nat) :
    ∀ (cs : List Char) (a b : Nat), a % M = b % M →
      (cs.foldl (fun n c => if '0' ≤ c ∧ c ≤ '9' then n * 10 + (c.toNat - 48) else n) a) % M =
      (cs.foldl (fun n c => if '0' ≤ c ∧ c ≤ '9' then n * 10 + (c.toNat - 48) else n) b) % M := by
  intro cs
  induction cs with
  | nil => intro a b h; simpa using h
  | cons c rest ih =>
    intro a b h
    simp only [List.foldl_cons]
    apply ih
    by_cases hc : '0' ≤ c ∧ c ≤ '9'
    · simp only [if_pos hc]
      rw [Nat.add_mod, Nat.mul_mod, h, ← Nat.mul_mod, ← Nat.add_mod]
    · simp only [if_neg hc]
      exact h

theorem parseLoop_number :
    ∀ (cs : List Char) (acc : Nat) (ks : List CodeKey) (n : Nat) (ks2 : List CodeKey),
      parseLoop cs acc ks = some (n, ks2) → acc < 2 ^ 32 →
      n = (cs.foldl (fun m c => if '0' ≤ c ∧ c ≤ '9' then m * 10 + (c.toNat - 48) else m) acc)
        % 2 ^ 32 := by
  intro cs
  induction cs with
  | nil =>
    intro acc ks n ks2 hp hacc
    simp only [parseLoop, Option.some.injEq, Prod.mk.injEq] at hp
    rw [List.foldl_nil, Nat.mod_eq_of_lt hacc]
    exact hp.1.symm
  | cons c rest ih =>
    intro acc ks n ks2 hp hacc
    simp only [parseLoop] at hp
    cases htf : CodeKey.tryFrom c with
    | none =>
      rw [htf] at hp
      cases hp
    | some k =>
      simp only [htf] at hp
      by_cases hc : '0' ≤ c ∧ c ≤ '9'
      · have hd : charToDigit c = some (c.toNat - 48) := by simp [charToDigit, hc]
        simp only [hd] at hp
        have hn := ih _ _ _ _ hp (Nat.mod_lt _ (by norm_num))
        rw [List.foldl_cons, if_pos hc, hn]
        exact foldl_dec_mod (2 ^ 32) rest _ _ (Nat.mod_mod _ _)
      · have hd : charToDigit c = none := by simp [charToDigit, hc]
        simp only [hd] at hp
        rw [List.foldl_cons, if_neg hc]
        exact ih _ _ _ _ hp hacc

theorem from_line_number (line : List Char) (code : Code)
    (h : Code.from_line line = some code) :
    code.number = decimalValue (trim line) % 2 ^ 32 := by
  unfold Code.from_line at h
  cases hp : parseLoop (trim line) 0 [] with
  | none =>
    rw [hp] at h
    cases h
  | some pr =>
    rw [hp] at h
    cases pr with
    | mk n ks =>
      have hcode : (⟨n, ks⟩ : Code) = code := by
        injection h
      rw [← hcode]
      exact parseLoop_number (trim line) 0 [] n ks hp (by norm_num)

/-- Counterexample to C10 as stated: the all-valid line of ten `9`s parses to
the numeric value 1410065407 — the decimal value 9999999999 wrapped to the
`u32` range — not to the decimal number formed by its digits. -/
theorem claim10_counterexample :
    (Code.from_line ['9', '9', '9', '9', '9', '9', '9', '9', '9', '9', 'A']).map Code.number
      = some 1410065407 ∧
    decimalValue (trim ['9', '9', '9', '9', '9', '9', '9', '9', '9', '9', 'A'])
      = 9999999999 ∧
    (1410065407 : Nat) ≠ 9999999999 :=
  ⟨by decide, by decide, by decide⟩

/-- Claim C10 (amended): `part_one` returns `None` exactly when some input
line contains, after trimming, a character that is neither a decimal digit
nor `A`; on success each parsed code's numeric value is the decimal number
formed by the line's digit characters in order, reduced modulo `2 ^ 32` (the
accumulator is a `u32`). -/
theorem claim10_amended_parse :
    (∀ lines : List (List Char),
      part_one lines = none ↔ ∃ l ∈ lines, ∃ c ∈ trim l, ¬ validCodeChar c) ∧
    (∀ (line : List Char) (code : Code), Code.from_line line = some code →
      code.number = decimalValue (trim line) % 2 ^ 32) := by
  constructor
  · intro lines
    unfold part_one
    cases hv : Code.vec_from_str lines with
    | none =>
      obtain ⟨l, hl, hln⟩ := (traverseO_eq_none_iff Code.from_line lines).1 hv
      exact iff_of_true rfl ⟨l, hl, (from_line_none_iff l).1 hln⟩
    | some codes =>
      constructor
      · intro h
        have h2 : total_cost 2 codes = none := h
        have hs := total_cost_two_isSome codes
        rw [h2] at hs
        simp at hs
      · rintro ⟨l, hl, c, hc, hcv⟩
        have hnone : Code.vec_from_str lines = none :=
          (traverseO_eq_none_iff Code.from_line lines).2
            ⟨l, hl, (from_line_none_iff l).2 ⟨c, hc, hcv⟩⟩
        rw [hnone] at hv
        cases hv
  · exact from_line_number

/-- Witness for the amended C10: the line `29A` parses with numeric value
`29 = decimalValue "29A" % 2 ^ 32`. -/
theorem claim10_amended_witness :
    Code.from_line ['2', '9', 'A'] = some ⟨29, [CodeKey.Two, CodeKey.Nine, CodeKey.A]⟩ ∧
    (⟨29, [CodeKey.Two, CodeKey.Nine, CodeKey.A]⟩ : Code).number
      = decimalValue (trim ['2', '9', 'A']) % 2 ^ 32 :=
  ⟨by decide,
   claim10_amended_parse.2 ['2', '9', 'A'] ⟨29, [CodeKey.Two, CodeKey.Nine, CodeKey.A]⟩
     (by decide)⟩

end Day21
